import Mathlib

/-!
Shallow embedding of `src/main.rs` (odnal/rust-hash-table): a word-frequency
counter with a naive linear-scan baseline (`FreqKVs`) and an open-addressing
hash table with linear probing and capacity doubling (`HashTable`).

Machine integers (`usize`) are modelled as `Nat` with explicit reduction
modulo `2 ^ 64` where the source relies on wrapping arithmetic.  Loops whose
termination is not structural (the probing `while` loops) are modelled with
fuel equal to the capacity, returning `none` when the fuel is exhausted or an
index is out of bounds; `none` therefore models divergence or a panic of the
source, and `some` models normal completion.
-/

set_option maxHeartbeats 1000000

/-- Arithmetic on `usize` in the source is modulo `2 ^ 64` (64-bit machine word). -/
def USIZE : Nat := 2 ^ 64

/-- The raw UTF-8 bytes of a string, as natural numbers (`self.bytes()`). -/
def strBytes (s : String) : List Nat := s.toUTF8.data.toList.map (fun b => b.toNat)

/-- One step of the hash loop:
`result = ((result << 5).wrapping_add(result)).wrapping_add(c.into())`.
`<< 5` on `usize` discards high bits, and `wrapping_add` reduces mod `2 ^ 64`. -/
def hashStep (result c : Nat) : Nat :=
  (((result <<< 5) % USIZE + result) % USIZE + c) % USIZE

/-- Model of `impl Hashable for String`'s `fn hash(&self) -> usize`: djb2 over the
string's bytes, seeded with 5381. -/
def hashStr (s : String) : Nat := (strBytes s).foldl hashStep 5381

/-- Model of `struct HashCell { key: String, value: usize, taken: bool }`. -/
structure HashCell where
  key : String
  value : Nat
  taken : Bool
deriving DecidableEq

/-- Model of `HashCell::default()`: empty key, value 0, not taken. -/
def HashCell.empty : HashCell := ⟨"", 0, false⟩

/-- Model of `struct HashTable { cells: Vec<HashCell>, taken_count: usize }`. -/
structure HashTable where
  cells : List HashCell
  taken_count : Nat
deriving DecidableEq

/-- Model of `HashTable::new()` generalised over the initial capacity. -/
def HashTable.newWith (cap : Nat) : HashTable :=
  ⟨List.replicate cap HashCell.empty, 0⟩

/-- Model of `HashTable::new()`: `INIT_CAP = 10` default cells, `taken_count = 0`. -/
def HashTable.new : HashTable := HashTable.newWith 10

/-- The probing `while` loop of `HashTable::insert`: starting at `index`,
advance by `(index + 1) % cells.len()` while the cell is taken and its key
differs from `key`; stop at the first cell that is empty or holds `key`.
Fuel bounds the number of inspected cells; `none` models divergence (or an
out-of-bounds index, which cannot occur for `index < cells.length`). -/
def probeInsert (cells : List HashCell) (key : String) : Nat → Nat → Option Nat
  | 0, _ => none
  | fuel + 1, index =>
    match cells.get? index with
    | none => none
    | some cell =>
      if cell.taken then
        if cell.key = key then some index
        else probeInsert cells key fuel ((index + 1) % cells.length)
      else some index

/-- The probing `while` loop of `HashTable::extend`: advance while the cell is
taken, stop at the first empty cell. -/
def probeEmpty (cells : List HashCell) : Nat → Nat → Option Nat
  | 0, _ => none
  | fuel + 1, index =>
    match cells.get? index with
    | none => none
    | some cell =>
      if cell.taken then probeEmpty cells fuel ((index + 1) % cells.length)
      else some index

/-- One iteration of the rehash loop in `HashTable::extend`: a taken cell of
the old table is placed at the first empty slot of the probe sequence starting
at `hash(key) % new_len`, and the new `taken_count` is incremented. -/
def rehashStep (acc : List HashCell × Nat) (cell : HashCell) :
    Option (List HashCell × Nat) :=
  if cell.taken then
    match probeEmpty acc.1 acc.1.length (hashStr cell.key % acc.1.length) with
    | none => none
    | some i => some (acc.1.set i ⟨cell.key, cell.value, true⟩, acc.2 + 1)
  else some acc

/-- Model of `HashTable::extend`: assert the capacity is positive, allocate
`cells.len() * 2` default cells, rehash every taken cell of the old table in
order, and replace the table.  `none` models the assertion failure or a
diverging probe. -/
def HashTable.extend (t : HashTable) : Option HashTable :=
  if 0 < t.cells.length then
    (t.cells.foldlM rehashStep
        (List.replicate (t.cells.length * 2) HashCell.empty, 0)).map
      (fun acc => ⟨acc.1, acc.2⟩)
  else none

/-- The body of `HashTable::insert` after the growth check: probe from
`hash(key) % cells.len()`; if the probe stops at a taken cell (key match) the
value is incremented, otherwise the key is stored there with value 1 and
`taken_count` is incremented. -/
def HashTable.insertNoGrow (t : HashTable) (key : String) : Option HashTable :=
  match probeInsert t.cells key t.cells.length (hashStr key % t.cells.length) with
  | none => none
  | some i =>
    match t.cells.get? i with
    | none => none
    | some cell =>
      if cell.taken then
        some ⟨t.cells.set i ⟨cell.key, cell.value + 1, cell.taken⟩, t.taken_count⟩
      else
        some ⟨t.cells.set i ⟨key, 1, true⟩, t.taken_count + 1⟩

/-- Model of `HashTable::insert`: grow first when `taken_count >= cells.len()`, then
probe and insert-or-increment. -/
def HashTable.insert (t : HashTable) (key : String) : Option HashTable :=
  if t.cells.length ≤ t.taken_count then
    match t.extend with
    | none => none
    | some t2 => t2.insertNoGrow key
  else t.insertNoGrow key

/-- Inserting a whole token sequence, in order (`better_analysis`'s loop). -/
def insertAll (t : HashTable) (tokens : List String) : Option HashTable :=
  tokens.foldlM HashTable.insert t

/-- Running `better_analysis`'s insertion loop from a fresh `HashTable::new()`. -/
def runTable (tokens : List String) : Option HashTable :=
  insertAll HashTable.new tokens

/-- The (key, count) pairs held in the occupied cells of a cell array. -/
def pairsOf (cells : List HashCell) : List (String × Nat) :=
  (cells.filter (fun c => c.taken)).map (fun c => (c.key, c.value))

/-- The (key, count) pairs held in the occupied cells of a table. -/
def tablePairs (t : HashTable) : List (String × Nat) := pairsOf t.cells

/-- The keys of the occupied cells of a cell array. -/
def takenKeys (cells : List HashCell) : List String :=
  (cells.filter (fun c => c.taken)).map (fun c => c.key)

/-- The abstract effect of one insert-or-increment on a (key, count) pair
list: increment the count of a present key, else append the key with count 1. -/
def bump (l : List (String × Nat)) (k : String) : List (String × Nat) :=
  if k ∈ l.map Prod.fst then
    l.map (fun p => if p.1 = k then (p.1, p.2 + 1) else p)
  else l ++ [(k, 1)]

/-- Structural invariant of a cell array: occupied keys are distinct, empty
cells are pristine defaults, occupied counts are positive, and the probe for
any occupied key stops at that key's cell. -/
def CellsInv (cells : List HashCell) : Prop :=
  (takenKeys cells).Nodup ∧
  (∀ c ∈ cells, c.taken = false → c = HashCell.empty) ∧
  (∀ c ∈ cells, c.taken = true → 1 ≤ c.value) ∧
  (∀ k ∈ takenKeys cells, ∃ i c,
    probeInsert cells k cells.length (hashStr k % cells.length) = some i ∧
    cells.get? i = some c ∧ c.taken = true ∧ c.key = k)

/-- Invariant of a reachable `HashTable` state: positive capacity, accurate
`taken_count`, and a structurally sound cell array. -/
def HInv (t : HashTable) : Prop :=
  0 < t.cells.length ∧
  t.taken_count = (t.cells.filter (fun c => c.taken)).length ∧
  CellsInv t.cells

/-- A table state reachable from `HashTable::new()` by a sequence of inserts. -/
def Reach (t : HashTable) : Prop := ∃ tokens, runTable tokens = some t

/-- Model of `struct FreqKV { key: String, value: u32 }` (the count fits in `Nat`). -/
structure FreqKV where
  key : String
  value : Nat
deriving DecidableEq

/-- Model of `struct FreqKVs { freq_table: Vec<FreqKV>, count: usize }`. -/
structure FreqKVs where
  freq_table : List FreqKV
  count : Nat
deriving DecidableEq

/-- Model of `FreqKVs::new()`: empty vector, count 0. -/
def FreqKVs.new : FreqKVs := ⟨[], 0⟩

/-- Model of `FreqKVs::find_key`: scan indices `0..count` and return the first index
whose entry's key equals `word` (the source returns the entry itself; the
index determines it).  Indexing past the end of `freq_table` would panic in
the source; it cannot happen in reachable states, where `count` equals the
length. -/
def FreqKVs.findIdx (f : FreqKVs) (word : String) : Option Nat :=
  (List.range f.count).find? (fun i =>
    match f.freq_table.get? i with
    | some kv => kv.key == word
    | none => false)

/-- One iteration of `naive_analysis`'s loop: if `find_key` succeeds the
entry's value is incremented, otherwise `{ key: token, value: 1 }` is appended
and `count` is incremented. -/
def FreqKVs.step (f : FreqKVs) (token : String) : FreqKVs :=
  match f.findIdx token with
  | some i =>
    match f.freq_table.get? i with
    | some kv => ⟨f.freq_table.set i ⟨kv.key, kv.value + 1⟩, f.count⟩
    | none => f
  | none => ⟨f.freq_table ++ [⟨token, 1⟩], f.count + 1⟩

/-- Running `naive_analysis`'s frequency loop from `FreqKVs::new()`. -/
def runNaive (tokens : List String) : FreqKVs :=
  tokens.foldl FreqKVs.step FreqKVs.new

/-- The (key, count) pairs of the baseline structure, in insertion order. -/
def naivePairs (f : FreqKVs) : List (String × Nat) :=
  f.freq_table.map (fun kv => (kv.key, kv.value))

/-- Invariant of the reachable baseline states: `count` tracks the vector
length and keys are distinct. -/
def NInv (f : FreqKVs) : Prop :=
  f.count = f.freq_table.length ∧ (f.freq_table.map (fun kv => kv.key)).Nodup

/-- The sort order of both reports: `sort_by_key(|e| Reverse(e.value))`, i.e.
non-increasing count. -/
def cellGE (a b : HashCell) : Prop := b.value ≤ a.value

instance : DecidableRel cellGE := fun a b => Nat.decLe b.value a.value

instance : IsTotal HashCell cellGE :=
  ⟨fun a b => Nat.le_total b.value a.value⟩

instance : IsTrans HashCell cellGE :=
  ⟨fun _ _ _ h1 h2 => Nat.le_trans h2 h1⟩

/-- Model of `slots.cells.sort_by_key(|entry| Reverse(entry.value))`: a stable sort by
count, descending. -/
def sortCells (cells : List HashCell) : List HashCell :=
  List.insertionSort cellGE cells

/-- The analogous order on the baseline entries. -/
def kvGE (a b : FreqKV) : Prop := b.value ≤ a.value

instance : DecidableRel kvGE := fun a b => Nat.decLe b.value a.value

instance : IsTotal FreqKV kvGE :=
  ⟨fun a b => Nat.le_total b.value a.value⟩

instance : IsTrans FreqKV kvGE :=
  ⟨fun _ _ _ h1 h2 => Nat.le_trans h2 h1⟩

/-- Model of `sort_freq_table`: stable sort of the baseline entries by count, descending. -/
def sortFreq (tbl : List FreqKV) : List FreqKV :=
  List.insertionSort kvGE tbl

/-- The top-N report loop `for i in 0..n { print(rows[i]) }`: row `i` is the
(key, value) pair at index `i` of the sorted sequence; `none` models the
out-of-bounds panic raised when fewer than `n` rows exist. -/
def reportRows {α : Type _} (key : α → String) (value : α → Nat) (rows : List α) :
    Nat → Option (List (String × Nat))
  | 0 => some []
  | n + 1 =>
    match reportRows key value rows n, rows.get? n with
    | some acc, some r => some (acc ++ [(key r, value r)])
    | _, _ => none

/-- The top-10 report of `better_analysis`: sort the cells by descending
count, then print rows 0 through 9 unconditionally. -/
def betterReport (t : HashTable) : Option (List (String × Nat)) :=
  reportRows (fun c => c.key) (fun c => c.value) (sortCells t.cells) 10

/-- The top-10 report of `naive_analysis`: sort the frequency table by
descending count, then print rows 0 through 9 unconditionally. -/
def naiveReport (f : FreqKVs) : Option (List (String × Nat)) :=
  reportRows (fun kv => kv.key) (fun kv => kv.value) (sortFreq f.freq_table) 10

/-- The spec's statement of the hash algorithm, written from its words:
"seed accumulator to 5381; for each byte `c`, update
`accumulator = accumulator*33 + c` using wrapping (modulo `2 ^ W`) arithmetic". -/
def djb2_spec (bytes : List Nat) : Nat :=
  bytes.foldl (fun acc c => (acc * 33 + c) % USIZE) 5381

/-- The observable output lines of `main` that the error-handling claims are
about. `analysisOutput` stands for the whole success-path analysis output. -/
inductive OutLine where
  | usage : OutLine
  | noInputErr : OutLine
  | openErr (path err : String) : OutLine
  | analyzing (path : String) : OutLine
  | analysisOutput : OutLine
deriving DecidableEq

/-- Model of `main`, shallowly embedded over its two external inputs: the argument
vector `args` (as in `env::args`, element 0 is the program name) and the file
system, abstracted as `openRes` mapping a path to `File::open`'s result.  The
returned list holds the printed lines: with no argument the usage message is
printed and `file_path` stays `""`; a failed open prints the error (inside
`read_entire_file`) and returns early; otherwise the analyses run. -/
def mainModel (args : List String) (openRes : String → Except String Unit) :
    List OutLine :=
  let file_path : String := if 1 < args.length then args.getD 1 "" else ""
  let argLines : List OutLine :=
    if 1 < args.length then [] else [OutLine.usage, OutLine.noInputErr]
  match openRes file_path with
  | Except.error e => argLines ++ [OutLine.openErr file_path e]
  | Except.ok _ =>
    argLines ++ [OutLine.analyzing file_path, OutLine.analysisOutput]

/-- Eleven distinct single-occurrence tokens (the §8 growth scenario). -/
def elevenKeys : List String :=
  ["t1", "t2", "t3", "t4", "t5", "t6", "t7", "t8", "t9", "t10", "t11"]

/-- The first ten of `elevenKeys`: exactly fills the initial capacity. -/
def tenKeys : List String := elevenKeys.take 10

/-- Decidable check for the C8 scenario: inserting `elevenKeys` into a fresh
table succeeds, doubles the capacity exactly once (10 → 20), occupies exactly
11 cells, and every key is present with count 1. -/
def c8check : Bool :=
  match runTable elevenKeys with
  | none => false
  | some t =>
    t.cells.length == 20 && t.taken_count == 11 &&
      elevenKeys.all (fun k => (tablePairs t).contains (k, 1))

/-- The table obtained by inserting `tenKeys` into a fresh table: a reachable
state that is exactly full (`taken_count = capacity = 10`). -/
def tenTable : HashTable := (runTable tenKeys).getD HashTable.new

/-- The result of one further insert into the full `tenTable`. -/
def tenTableNext : HashTable := (tenTable.insert "t11").getD HashTable.new

/-! ### Basic list helpers -/

theorem get?_set_of_ne {α : Type _} {l : List α} {i j : Nat} (a : α) (h : i ≠ j) :
    (l.set i a).get? j = l.get? j := by
  simp [List.get?_eq_getElem?, List.getElem?_set_ne h]

theorem get?_set_self {α : Type _} {l : List α} {i : Nat} (a : α) (h : i < l.length) :
    (l.set i a).get? i = some a := by
  simp [List.get?_eq_getElem?, List.getElem?_set_eq_of_lt a h]

theorem list_set_decomp {α : Type _} {l : List α} {i : Nat} {a : α}
    (h : l.get? i = some a) :
    l = l.take i ++ a :: l.drop (i + 1) ∧
      ∀ b, l.set i b = l.take i ++ b :: l.drop (i + 1) := by
  induction l generalizing i with
  | nil => simp at h
  | cons hd tl ih =>
    cases i with
    | zero =>
      simp at h
      subst h
      simp
    | succ n =>
      rw [List.get?_cons_succ] at h
      obtain ⟨h1, h2⟩ := ih h
      refine ⟨?_, fun b => ?_⟩
      · simpa using h1
      · simpa using h2 b

/-! ### Lemmas about the probing loops -/

theorem mem_takenKeys_of {cells : List HashCell} {c : HashCell}
    (hc : c ∈ cells) (ht : c.taken = true) : c.key ∈ takenKeys cells := by
  simp only [takenKeys, List.mem_map]
  exact ⟨c, List.mem_filter.mpr ⟨hc, by simp [ht]⟩, rfl⟩

theorem mem_takenKeys_iff {cells : List HashCell} {k : String} :
    k ∈ takenKeys cells ↔ ∃ c, c ∈ cells ∧ c.taken = true ∧ c.key = k := by
  simp only [takenKeys, List.mem_map, List.mem_filter]
  constructor
  · rintro ⟨c, ⟨hc, ht⟩, hk⟩
    exact ⟨c, hc, by simpa using ht, hk⟩
  · rintro ⟨c, hc, ht, hk⟩
    exact ⟨c, ⟨hc, by simp [ht]⟩, hk⟩

/-- One unfolding step of `probeInsert` when the scrutinised cell exists. -/
theorem probeInsert_succ {cells : List HashCell} {key : String} {n idx : Nat}
    {cell : HashCell} (h : cells.get? idx = some cell) :
    probeInsert cells key (n + 1) idx =
      if cell.taken = true then
        if cell.key = key then some idx
        else probeInsert cells key n ((idx + 1) % cells.length)
      else some idx := by
  rw [probeInsert, h]

/-- One unfolding step of `probeInsert` at an out-of-range index. -/
theorem probeInsert_succ_oob {cells : List HashCell} {key : String} {n idx : Nat}
    (h : cells.get? idx = none) :
    probeInsert cells key (n + 1) idx = none := by
  rw [probeInsert, h]

/-- Where the insert probe stops: an empty cell, or a taken cell with the key. -/
theorem probeInsert_stop {cells : List HashCell} {key : String} {fuel idx i : Nat}
    (h : probeInsert cells key fuel idx = some i) :
    ∃ c, cells.get? i = some c ∧ (c.taken = false ∨ (c.taken = true ∧ c.key = key)) := by
  induction fuel generalizing idx with
  | zero => simp [probeInsert] at h
  | succ n ih =>
    rw [probeInsert] at h
    cases hc : cells.get? idx with
    | none => rw [hc] at h; exact absurd h (by simp)
    | some cell =>
      rw [hc] at h
      by_cases ht : cell.taken = true
      · by_cases hk : cell.key = key
        · simp only [ht, hk, if_true] at h
          cases h
          exact ⟨cell, hc, Or.inr ⟨ht, hk⟩⟩
        · simp only [ht, hk, if_true, if_false] at h
          exact ih h
      · simp only [ht, if_false] at h
        cases h
        exact ⟨cell, hc, Or.inl (by simpa using ht)⟩

/-- If the insert probe exhausts its fuel, every visited cell was taken. -/
theorem probeInsert_none_taken {cells : List HashCell} {key : String} {fuel idx : Nat}
    (hidx : idx < cells.length)
    (h : probeInsert cells key fuel idx = none) :
    ∀ t < fuel, ∀ c, cells.get? ((idx + t) % cells.length) = some c → c.taken = true := by
  induction fuel generalizing idx with
  | zero => intro t ht; omega
  | succ n ih =>
    rw [probeInsert] at h
    have hc : cells.get? idx = some (cells.get ⟨idx, hidx⟩) := List.get?_eq_get hidx
    rw [hc] at h
    set cell := cells.get ⟨idx, hidx⟩ with hcell
    by_cases ht : cell.taken = true
    · by_cases hk : cell.key = key
      · simp [ht, hk] at h
      · simp only [ht, hk, if_true, if_false] at h
        have hpos : 0 < cells.length := Nat.lt_of_le_of_lt (Nat.zero_le _) hidx
        have hidx2 : (idx + 1) % cells.length < cells.length := Nat.mod_lt _ hpos
        have hrec := ih hidx2 h
        intro t htn c hget
        cases t with
        | zero =>
          rw [Nat.add_zero, Nat.mod_eq_of_lt hidx, hc] at hget
          cases hget
          exact ht
        | succ t2 =>
          have harith : ((idx + 1) % cells.length + t2) % cells.length =
              (idx + (t2 + 1)) % cells.length := by
            rw [Nat.mod_add_mod]
            congr 1
            omega
          refine hrec t2 (by omega) c ?_
          rw [harith]
          exact hget
    · simp [ht] at h

/-- The insert probe terminates (with fuel = capacity) whenever an empty cell
exists somewhere in the table. -/
theorem probeInsert_total {cells : List HashCell} {key : String} {idx : Nat}
    (hidx : idx < cells.length)
    (hempty : ∃ j c, cells.get? j = some c ∧ c.taken = false) :
    ∃ i, probeInsert cells key cells.length idx = some i := by
  cases hp : probeInsert cells key cells.length idx with
  | some i => exact ⟨i, rfl⟩
  | none =>
    exfalso
    obtain ⟨j, c, hj, hcf⟩ := hempty
    have hjlen : j < cells.length := (List.get?_eq_some.mp hj).1
    have hpos : 0 < cells.length := Nat.lt_of_le_of_lt (Nat.zero_le _) hidx
    have hall := probeInsert_none_taken hidx hp
    have ht : (cells.length + j - idx) % cells.length < cells.length := Nat.mod_lt _ hpos
    have hix : (idx + (cells.length + j - idx) % cells.length) % cells.length = j := by
      rw [Nat.add_mod_mod]
      have : idx + (cells.length + j - idx) = cells.length + j := by omega
      rw [this, Nat.add_mod_left, Nat.mod_eq_of_lt hjlen]
    have := hall _ ht c (by rw [hix]; exact hj)
    rw [hcf] at this
    exact Bool.false_ne_true this

/-- For a key absent from the occupied cells, the insert probe and the rehash
probe follow the same path and stop at the same place. -/
theorem probeEmpty_eq_probeInsert {cells : List HashCell} {key : String}
    (hk : key ∉ takenKeys cells) :
    ∀ fuel idx, probeEmpty cells fuel idx = probeInsert cells key fuel idx := by
  intro fuel
  induction fuel with
  | zero => intro idx; simp [probeEmpty, probeInsert]
  | succ n ih =>
    intro idx
    rw [probeEmpty, probeInsert]
    cases hc : cells.get? idx with
    | none => rfl
    | some cell =>
      by_cases ht : cell.taken = true
      · have hne : cell.key ≠ key := by
          intro he
          exact hk (he ▸ mem_takenKeys_of (List.get?_mem hc) ht)
        simp only [ht, hne, if_true, if_false]
        exact ih _
      · simp [ht]

/-- Filling a (previously empty) cell does not disturb a probe that stopped at
a taken cell: the probe's path consists of taken cells only. -/
theorem probeInsert_set_of_untaken {cells : List HashCell} {key : String}
    {fuel i i2 : Nat} {c c2 : HashCell} (b : HashCell)
    (hi2 : cells.get? i2 = some c2) (ht2 : c2.taken = true)
    (hi : cells.get? i = some c) (hti : c.taken = false) :
    ∀ idx, probeInsert cells key fuel idx = some i2 →
      probeInsert (cells.set i b) key fuel idx = some i2 := by
  induction fuel with
  | zero => intro idx hp; simp [probeInsert] at hp
  | succ n ih =>
    intro idx hp
    rw [probeInsert] at hp ⊢
    cases hc : cells.get? idx with
    | none => rw [hc] at hp; exact absurd hp (by simp)
    | some cell =>
      rw [hc] at hp
      by_cases htc : cell.taken = true
      · have hne : i ≠ idx := by
          intro he
          subst he
          rw [hc] at hi
          cases hi
          rw [hti] at htc
          exact Bool.false_ne_true htc
        rw [get?_set_of_ne b hne, hc]
        by_cases hk : cell.key = key
        · simp only [htc, hk, if_true] at hp ⊢
          exact hp
        · simp only [htc, hk, if_true, if_false] at hp ⊢
          rw [List.length_set]
          exact ih _ hp
      · simp only [htc, if_false] at hp
        cases hp
        rw [hc] at hi2
        cases hi2
        rw [ht2] at htc
        exact absurd rfl htc

/-- After a fresh insert of `key` at the empty cell where its probe stopped,
the probe for `key` stops at that same cell. -/
theorem probeInsert_set_self {cells : List HashCell} {key : String}
    {fuel i : Nat} {c : HashCell} (v : Nat)
    (hi : cells.get? i = some c) (hti : c.taken = false) :
    ∀ idx, probeInsert cells key fuel idx = some i →
      probeInsert (cells.set i ⟨key, v, true⟩) key fuel idx = some i := by
  induction fuel with
  | zero => intro idx hp; simp [probeInsert] at hp
  | succ n ih =>
    intro idx hp
    rw [probeInsert] at hp ⊢
    cases hc : cells.get? idx with
    | none => rw [hc] at hp; exact absurd hp (by simp)
    | some cell =>
      rw [hc] at hp
      by_cases htc : cell.taken = true
      · have hne : i ≠ idx := by
          intro he
          subst he
          rw [hc] at hi
          cases hi
          rw [hti] at htc
          exact Bool.false_ne_true htc
        rw [get?_set_of_ne _ hne, hc]
        by_cases hk : cell.key = key
        · simp only [htc, hk, if_true] at hp ⊢
          cases hp
          exact absurd rfl hne
        · simp only [htc, hk, if_true, if_false] at hp ⊢
          rw [List.length_set]
          exact ih _ hp
      · simp only [htc, if_false] at hp
        injection hp with hpe
        subst hpe
        have hlen : idx < cells.length := (List.get?_eq_some.mp hc).1
        rw [get?_set_self _ hlen]
        simp

/-- Replacing a cell by one with the same `taken` flag and key (only the value
changes) leaves every probe unchanged. -/
theorem probeInsert_set_same_shape {cells : List HashCell} {key : String}
    {i : Nat} {c c2 : HashCell}
    (hi : cells.get? i = some c) (ht : c2.taken = c.taken) (hk : c2.key = c.key) :
    ∀ fuel idx, probeInsert (cells.set i c2) key fuel idx =
      probeInsert cells key fuel idx := by
  intro fuel
  induction fuel with
  | zero => intro idx; simp [probeInsert]
  | succ n ih =>
    intro idx
    by_cases he : i = idx
    · subst he
      have hlen : i < cells.length := (List.get?_eq_some.mp hi).1
      rw [probeInsert_succ (get?_set_self c2 hlen), probeInsert_succ hi, ht, hk]
      by_cases htc : c.taken = true
      · by_cases hkc : c.key = key
        · simp [htc, hkc]
        · simp only [htc, hkc, if_true, if_false]
          rw [List.length_set]
          exact ih _
      · simp [htc]
    · cases hc : cells.get? idx with
      | none =>
        have hc2 : (cells.set i c2).get? idx = none := by
          rw [get?_set_of_ne _ he]; exact hc
        rw [probeInsert_succ_oob hc2, probeInsert_succ_oob hc]
      | some cell =>
        have hc2 : (cells.set i c2).get? idx = some cell := by
          rw [get?_set_of_ne _ he]; exact hc
        rw [probeInsert_succ hc2, probeInsert_succ hc]
        by_cases htc : cell.taken = true
        · by_cases hkc : cell.key = key
          · simp [htc, hkc]
          · simp only [htc, hkc, if_true, if_false]
            rw [List.length_set]
            exact ih _
        · simp [htc]

/-! ### Contents of cell arrays -/

theorem pairsOf_append (A B : List HashCell) :
    pairsOf (A ++ B) = pairsOf A ++ pairsOf B := by
  simp [pairsOf, List.filter_append]

theorem pairsOf_cons_taken {c : HashCell} (h : c.taken = true) (B : List HashCell) :
    pairsOf (c :: B) = (c.key, c.value) :: pairsOf B := by
  simp [pairsOf, List.filter_cons, h]

theorem pairsOf_cons_untaken {c : HashCell} (h : c.taken = false) (B : List HashCell) :
    pairsOf (c :: B) = pairsOf B := by
  simp [pairsOf, List.filter_cons, h]

theorem takenKeys_eq_fst_pairsOf (cells : List HashCell) :
    takenKeys cells = (pairsOf cells).map Prod.fst := by
  simp [takenKeys, pairsOf, List.map_map]

theorem takenKeys_append (A B : List HashCell) :
    takenKeys (A ++ B) = takenKeys A ++ takenKeys B := by
  simp [takenKeys, List.filter_append]

theorem takenKeys_cons_taken {c : HashCell} (h : c.taken = true) (B : List HashCell) :
    takenKeys (c :: B) = c.key :: takenKeys B := by
  simp [takenKeys, List.filter_cons, h]

theorem takenKeys_cons_untaken {c : HashCell} (h : c.taken = false) (B : List HashCell) :
    takenKeys (c :: B) = takenKeys B := by
  simp [takenKeys, List.filter_cons, h]

theorem filterTaken_append (A B : List HashCell) :
    (A ++ B).filter (fun c => c.taken) =
      A.filter (fun c => c.taken) ++ B.filter (fun c => c.taken) := by
  simp [List.filter_append]

/-- A table whose occupied-cell count is below its capacity has an empty cell. -/
theorem exists_untaken {cells : List HashCell}
    (h : (cells.filter (fun c => c.taken)).length < cells.length) :
    ∃ j c, cells.get? j = some c ∧ c.taken = false := by
  by_contra hno
  push_neg at hno
  have hall : ∀ c ∈ cells, c.taken = true := by
    intro c hc
    obtain ⟨⟨j, hj⟩, hget⟩ := List.mem_iff_get.mp hc
    have hsome : cells.get? j = some c := by
      rw [List.get?_eq_get hj, hget]
    cases htc : c.taken with
    | false => exact absurd htc (hno j c hsome)
    | true => rfl
  have : cells.filter (fun c => c.taken) = cells :=
    List.filter_eq_self.mpr (fun c hc => by simp [hall c hc])
  rw [this] at h
  exact lt_irrefl _ h

/-! ### The abstract `bump` step -/

theorem bump_absent {l : List (String × Nat)} {k : String}
    (h : k ∉ l.map Prod.fst) : bump l k = l ++ [(k, 1)] := by
  simp [bump, h]

theorem bump_found {P Q : List (String × Nat)} {k : String} {v : Nat}
    (hP : k ∉ P.map Prod.fst) (hQ : k ∉ Q.map Prod.fst) :
    bump (P ++ (k, v) :: Q) k = P ++ (k, v + 1) :: Q := by
  have hmem : k ∈ (P ++ (k, v) :: Q).map Prod.fst := by simp
  rw [bump, if_pos hmem, List.map_append, List.map_cons]
  have hid : ∀ (L : List (String × Nat)), k ∉ L.map Prod.fst →
      L.map (fun p => if p.1 = k then (p.1, p.2 + 1) else p) = L := by
    intro L hL
    conv_rhs => rw [← List.map_id L]
    apply List.map_congr_left
    intro p hp
    have hne : p.1 ≠ k := fun he => hL (he ▸ List.mem_map_of_mem Prod.fst hp)
    simp [hne]
  rw [hid P hP, hid Q hQ]
  simp

theorem bump_perm_congr {l l2 : List (String × Nat)} (k : String)
    (h : l.Perm l2) : (bump l k).Perm (bump l2 k) := by
  by_cases hmem : k ∈ l.map Prod.fst
  · have hmem2 : k ∈ l2.map Prod.fst := (h.map Prod.fst).mem_iff.mp hmem
    rw [bump, if_pos hmem, bump, if_pos hmem2]
    exact h.map _
  · have hmem2 : k ∉ l2.map Prod.fst := fun hm =>
      hmem ((h.map Prod.fst).mem_iff.mpr hm)
    rw [bump, if_neg hmem, bump, if_neg hmem2]
    exact h.append_right _

/-! ### The two ways an insert changes the cell array -/

/-- Effect of storing a fresh key at the empty cell where its probe stopped:
the invariant is preserved, the occupied count rises by one, and the contents
gain the pair `(k, v)`. -/
theorem set_fresh_spec {cells : List HashCell} {i : Nat} {c : HashCell}
    (hinv : CellsInv cells)
    (hi : cells.get? i = some c) (hti : c.taken = false)
    {k : String} {v : Nat} (hv : 1 ≤ v)
    (hk : k ∉ takenKeys cells)
    (hprobe : probeInsert cells k cells.length (hashStr k % cells.length) = some i) :
    CellsInv (cells.set i ⟨k, v, true⟩) ∧
    ((cells.set i ⟨k, v, true⟩).filter (fun x => x.taken)).length
      = (cells.filter (fun x => x.taken)).length + 1 ∧
    (pairsOf (cells.set i ⟨k, v, true⟩)).Perm ((k, v) :: pairsOf cells) ∧
    (∀ x, x ∈ takenKeys (cells.set i ⟨k, v, true⟩) ↔ x = k ∨ x ∈ takenKeys cells) := by
  obtain ⟨hnd, hdef, hpos, hfind⟩ := hinv
  obtain ⟨hde, hse⟩ := list_set_decomp hi
  have hilen : i < cells.length := (List.get?_eq_some.mp hi).1
  have hsetEq : cells.set i ⟨k, v, true⟩ =
      cells.take i ++ ⟨k, v, true⟩ :: cells.drop (i + 1) := hse _
  have hkeys : takenKeys cells = takenKeys (cells.take i) ++ takenKeys (cells.drop (i + 1)) := by
    conv_lhs => rw [hde]
    rw [takenKeys_append, takenKeys_cons_untaken hti]
  have hkeys2 : takenKeys (cells.set i ⟨k, v, true⟩) =
      takenKeys (cells.take i) ++ k :: takenKeys (cells.drop (i + 1)) := by
    rw [hsetEq, takenKeys_append, takenKeys_cons_taken rfl]
  have hpairs : pairsOf cells = pairsOf (cells.take i) ++ pairsOf (cells.drop (i + 1)) := by
    conv_lhs => rw [hde]
    rw [pairsOf_append, pairsOf_cons_untaken hti]
  have hpairs2 : pairsOf (cells.set i ⟨k, v, true⟩) =
      pairsOf (cells.take i) ++ (k, v) :: pairsOf (cells.drop (i + 1)) := by
    rw [hsetEq, pairsOf_append, pairsOf_cons_taken rfl]
  have hmem_of : ∀ c2, c2 ∈ cells.set i ⟨k, v, true⟩ →
      c2 = (⟨k, v, true⟩ : HashCell) ∨ c2 ∈ cells := by
    intro c2 hc2
    rw [hsetEq] at hc2
    rcases List.mem_append.mp hc2 with hA | hCB
    · right
      rw [hde]
      exact List.mem_append.mpr (Or.inl hA)
    · rcases List.mem_cons.mp hCB with he | hB
      · exact Or.inl he
      · right
        rw [hde]
        exact List.mem_append.mpr (Or.inr (List.mem_cons.mpr (Or.inr hB)))
  refine ⟨⟨?_, ?_, ?_, ?_⟩, ?_, ?_, ?_⟩
  · rw [hkeys2]
    rw [List.nodup_middle]
    rw [hkeys] at hnd hk
    exact List.Nodup.cons hk hnd
  · intro c2 hc2 htc2
    rcases hmem_of c2 hc2 with he | hmem
    · subst he
      simp at htc2
    · exact hdef c2 hmem htc2
  · intro c2 hc2 htc2
    rcases hmem_of c2 hc2 with he | hmem
    · subst he
      exact hv
    · exact hpos c2 hmem htc2
  · intro k2 hk2
    simp only [List.length_set]
    rw [hkeys2] at hk2
    rcases List.mem_append.mp hk2 with hA | hKB
    · obtain ⟨i2, c2, hp2, hg2, ht2, hq2⟩ := hfind k2 (by rw [hkeys]; exact List.mem_append.mpr (Or.inl hA))
      have hne : i ≠ i2 := by
        intro he
        subst he
        rw [hg2] at hi
        cases hi
        rw [hti] at ht2
        exact Bool.false_ne_true ht2
      exact ⟨i2, c2, probeInsert_set_of_untaken _ hg2 ht2 hi hti _ hp2,
        by rw [get?_set_of_ne _ hne]; exact hg2, ht2, hq2⟩
    · rcases List.mem_cons.mp hKB with he | hB
      · subst he
        exact ⟨i, ⟨k2, v, true⟩, probeInsert_set_self v hi hti _ hprobe,
          get?_set_self _ hilen, rfl, rfl⟩
      · obtain ⟨i2, c2, hp2, hg2, ht2, hq2⟩ := hfind k2 (by rw [hkeys]; exact List.mem_append.mpr (Or.inr hB))
        have hne : i ≠ i2 := by
          intro he
          subst he
          rw [hg2] at hi
          cases hi
          rw [hti] at ht2
          exact Bool.false_ne_true ht2
        exact ⟨i2, c2, probeInsert_set_of_untaken _ hg2 ht2 hi hti _ hp2,
          by rw [get?_set_of_ne _ hne]; exact hg2, ht2, hq2⟩
  · have h1 : (cells.filter (fun x => x.taken)) =
        (cells.take i).filter (fun x => x.taken) ++ (cells.drop (i + 1)).filter (fun x => x.taken) := by
      conv_lhs => rw [hde]
      rw [filterTaken_append, List.filter_cons]
      simp [hti]
    have h2 : ((cells.set i ⟨k, v, true⟩).filter (fun x => x.taken)) =
        (cells.take i).filter (fun x => x.taken) ++
          (⟨k, v, true⟩ : HashCell) :: (cells.drop (i + 1)).filter (fun x => x.taken) := by
      rw [hsetEq, filterTaken_append, List.filter_cons]
      simp
    rw [h1, h2]
    simp only [List.length_append, List.length_cons]
    omega
  · rw [hpairs2, hpairs]
    exact List.perm_middle
  · intro x
    rw [hkeys2, hkeys]
    simp only [List.mem_append, List.mem_cons]
    tauto

/-- Effect of incrementing the value of the taken cell at which the probe for
its key stopped: the invariant, the occupied count and the occupied keys are
preserved, and the contents change by `bump` at that key. -/
theorem set_incr_spec {cells : List HashCell} {i : Nat} {c : HashCell}
    (hinv : CellsInv cells)
    (hi : cells.get? i = some c) (hti : c.taken = true) :
    CellsInv (cells.set i ⟨c.key, c.value + 1, true⟩) ∧
    ((cells.set i ⟨c.key, c.value + 1, true⟩).filter (fun x => x.taken)).length
      = (cells.filter (fun x => x.taken)).length ∧
    takenKeys (cells.set i ⟨c.key, c.value + 1, true⟩) = takenKeys cells ∧
    pairsOf (cells.set i ⟨c.key, c.value + 1, true⟩) = bump (pairsOf cells) c.key := by
  obtain ⟨hnd, hdef, hpos, hfind⟩ := hinv
  obtain ⟨hde, hse⟩ := list_set_decomp hi
  have hilen : i < cells.length := (List.get?_eq_some.mp hi).1
  have hsetEq : cells.set i ⟨c.key, c.value + 1, true⟩ =
      cells.take i ++ ⟨c.key, c.value + 1, true⟩ :: cells.drop (i + 1) := hse _
  have hkeys : takenKeys cells =
      takenKeys (cells.take i) ++ c.key :: takenKeys (cells.drop (i + 1)) := by
    conv_lhs => rw [hde]
    rw [takenKeys_append, takenKeys_cons_taken hti]
  have hkeys2 : takenKeys (cells.set i ⟨c.key, c.value + 1, true⟩) =
      takenKeys (cells.take i) ++ c.key :: takenKeys (cells.drop (i + 1)) := by
    rw [hsetEq, takenKeys_append, takenKeys_cons_taken rfl]
  have hpairs : pairsOf cells =
      pairsOf (cells.take i) ++ (c.key, c.value) :: pairsOf (cells.drop (i + 1)) := by
    conv_lhs => rw [hde]
    rw [pairsOf_append, pairsOf_cons_taken hti]
  have hpairs2 : pairsOf (cells.set i ⟨c.key, c.value + 1, true⟩) =
      pairsOf (cells.take i) ++ (c.key, c.value + 1) :: pairsOf (cells.drop (i + 1)) := by
    rw [hsetEq, pairsOf_append, pairsOf_cons_taken rfl]
  have hnd2 := hnd
  rw [hkeys] at hnd2
  have hnotin : c.key ∉ takenKeys (cells.take i) ++ takenKeys (cells.drop (i + 1)) :=
    (List.nodup_cons.mp (List.nodup_middle.mp hnd2)).1
  have hnotA : c.key ∉ takenKeys (cells.take i) := fun hmem =>
    hnotin (List.mem_append.mpr (Or.inl hmem))
  have hnotB : c.key ∉ takenKeys (cells.drop (i + 1)) := fun hmem =>
    hnotin (List.mem_append.mpr (Or.inr hmem))
  have hmem_of : ∀ c2, c2 ∈ cells.set i ⟨c.key, c.value + 1, true⟩ →
      c2 = (⟨c.key, c.value + 1, true⟩ : HashCell) ∨ c2 ∈ cells := by
    intro c2 hc2
    rw [hsetEq] at hc2
    rcases List.mem_append.mp hc2 with hA | hCB
    · right
      rw [hde]
      exact List.mem_append.mpr (Or.inl hA)
    · rcases List.mem_cons.mp hCB with he | hB
      · exact Or.inl he
      · right
        rw [hde]
        exact List.mem_append.mpr (Or.inr (List.mem_cons.mpr (Or.inr hB)))
  refine ⟨⟨?_, ?_, ?_, ?_⟩, ?_, ?_, ?_⟩
  · rw [hkeys2, ← hkeys]
    exact hnd
  · intro c2 hc2 htc2
    rcases hmem_of c2 hc2 with he | hmem
    · subst he
      simp at htc2
    · exact hdef c2 hmem htc2
  · intro c2 hc2 htc2
    rcases hmem_of c2 hc2 with he | hmem
    · subst he
      simp
    · exact hpos c2 hmem htc2
  · intro k2 hk2
    simp only [List.length_set]
    rw [hkeys2, ← hkeys] at hk2
    obtain ⟨i2, c2, hp2, hg2, ht2, hq2⟩ := hfind k2 hk2
    refine ⟨i2, if i = i2 then ⟨c.key, c.value + 1, true⟩ else c2, ?_, ?_, ?_, ?_⟩
    · rw [@probeInsert_set_same_shape cells k2 i c ⟨c.key, c.value + 1, true⟩ hi
        hti.symm rfl]
      exact hp2
    · by_cases he : i = i2
      · subst he
        simp only [if_pos]
        exact get?_set_self _ hilen
      · rw [if_neg he, get?_set_of_ne _ he]
        exact hg2
    · by_cases he : i = i2
      · subst he
        simp
      · rw [if_neg he]
        exact ht2
    · by_cases he : i = i2
      · subst he
        rw [hg2] at hi
        cases hi
        simpa using hq2
      · rw [if_neg he]
        exact hq2
  · have h1 : (cells.filter (fun x => x.taken)) =
        (cells.take i).filter (fun x => x.taken) ++
          c :: (cells.drop (i + 1)).filter (fun x => x.taken) := by
      conv_lhs => rw [hde]
      rw [filterTaken_append, List.filter_cons]
      simp [hti]
    have h2 : ((cells.set i ⟨c.key, c.value + 1, true⟩).filter (fun x => x.taken)) =
        (cells.take i).filter (fun x => x.taken) ++
          (⟨c.key, c.value + 1, true⟩ : HashCell) ::
            (cells.drop (i + 1)).filter (fun x => x.taken) := by
      rw [hsetEq, filterTaken_append, List.filter_cons]
      simp
    rw [h1, h2]
    simp
  · rw [hkeys2, ← hkeys]
  · rw [hpairs2, hpairs]
    rw [takenKeys_eq_fst_pairsOf] at hnotA hnotB
    exact (bump_found hnotA hnotB).symm

/-- Full specification of the probe-and-store part of `insert` on an
invariant-satisfying table with at least one empty cell: it succeeds,
preserves the capacity and the invariant, bumps the contents at `k`, and
increments `taken_count` exactly when `k` was absent. -/
theorem insertNoGrow_spec {t : HashTable} (k : String)
    (hlen : 0 < t.cells.length)
    (hinv : CellsInv t.cells)
    (hroom : (t.cells.filter (fun c => c.taken)).length < t.cells.length) :
    ∃ t2, t.insertNoGrow k = some t2 ∧
      t2.cells.length = t.cells.length ∧
      CellsInv t2.cells ∧
      (t2.cells.filter (fun c => c.taken)).length =
        (t.cells.filter (fun c => c.taken)).length +
          (if k ∈ takenKeys t.cells then 0 else 1) ∧
      t2.taken_count = t.taken_count + (if k ∈ takenKeys t.cells then 0 else 1) ∧
      (pairsOf t2.cells).Perm (bump (pairsOf t.cells) k) := by
  have hidx : hashStr k % t.cells.length < t.cells.length := Nat.mod_lt _ hlen
  obtain ⟨i, hp⟩ := probeInsert_total hidx (exists_untaken hroom)
  obtain ⟨c, hg, hstop⟩ := probeInsert_stop hp
  rcases hstop with htf | ⟨htt, hkey⟩
  · -- the probe stopped at an empty cell: fresh store of (k, 1)
    have hnmem : k ∉ takenKeys t.cells := by
      intro hmem
      obtain ⟨i0, c0, hp0, hg0, ht0, hq0⟩ := hinv.2.2.2 k hmem
      rw [hp] at hp0
      cases hp0
      rw [hg] at hg0
      cases hg0
      rw [htf] at ht0
      exact Bool.false_ne_true ht0
    obtain ⟨hinv2, hcount2, hperm2, hmem2⟩ :=
      set_fresh_spec hinv hg htf (Nat.le_refl 1) hnmem hp
    refine ⟨⟨t.cells.set i ⟨k, 1, true⟩, t.taken_count + 1⟩, ?_, ?_, hinv2, ?_, ?_, ?_⟩
    · simp only [HashTable.insertNoGrow, hp, hg, htf]
      rfl
    · simp [List.length_set]
    · simp only [if_neg hnmem]
      exact hcount2
    · simp [if_neg hnmem]
    · rw [bump_absent (by rw [← takenKeys_eq_fst_pairsOf]; exact hnmem)]
      exact hperm2.trans (List.perm_append_singleton _ _).symm
  · -- the probe stopped at the cell already holding k: increment
    have hmem : k ∈ takenKeys t.cells :=
      hkey ▸ mem_takenKeys_of (List.get?_mem hg) htt
    obtain ⟨hinv2, hcount2, hkeys2, hbump2⟩ := set_incr_spec hinv hg htt
    refine ⟨⟨t.cells.set i ⟨c.key, c.value + 1, true⟩, t.taken_count⟩, ?_, ?_, hinv2,
      ?_, ?_, ?_⟩
    · simp only [HashTable.insertNoGrow, hp, hg, htt]
      simp [htt]
    · simp [List.length_set]
    · simp only [if_pos hmem, Nat.add_zero]
      exact hcount2
    · simp [if_pos hmem]
    · rw [show bump (pairsOf t.cells) k = bump (pairsOf t.cells) c.key by rw [hkey]]
      rw [hbump2]

/-! ### The rehash loop of `extend` -/

/-- Invariant-carrying specification of the rehash loop: folding `rehashStep`
over old cells whose occupied keys are distinct and disjoint from the
accumulator inserts exactly their (key, value) pairs, provided enough empty
cells remain. -/
theorem rehash_fold_spec (olds : List HashCell) :
    ∀ (accCells : List HashCell) (accCnt : Nat),
      0 < accCells.length →
      CellsInv accCells →
      (∀ c ∈ olds, c.taken = true → 1 ≤ c.value) →
      (takenKeys olds).Nodup →
      (∀ x ∈ takenKeys olds, x ∉ takenKeys accCells) →
      (accCells.filter (fun c => c.taken)).length +
        (olds.filter (fun c => c.taken)).length < accCells.length →
      ∃ cells2,
        olds.foldlM rehashStep (accCells, accCnt) =
          some (cells2, accCnt + (olds.filter (fun c => c.taken)).length) ∧
        cells2.length = accCells.length ∧
        CellsInv cells2 ∧
        (cells2.filter (fun c => c.taken)).length =
          (accCells.filter (fun c => c.taken)).length +
            (olds.filter (fun c => c.taken)).length ∧
        (pairsOf cells2).Perm (pairsOf accCells ++ pairsOf olds) := by
  induction olds with
  | nil =>
    intro accCells accCnt hlen hinv hposOld hndOld hdisj hroom
    refine ⟨accCells, ?_, rfl, hinv, ?_, ?_⟩
    · simp [List.foldlM, pairsOf, List.filter]
    · simp [pairsOf, List.filter]
    · simp [pairsOf, List.filter]
  | cons o rest ih =>
    intro accCells accCnt hlen hinv hposOld hndOld hdisj hroom
    by_cases hto : o.taken = true
    · have hkeysCons : takenKeys (o :: rest) = o.key :: takenKeys rest :=
        takenKeys_cons_taken hto rest
      have hfilterCons : (o :: rest).filter (fun c => c.taken) =
          o :: rest.filter (fun c => c.taken) := by
        simp [List.filter_cons, hto]
      have hnmem : o.key ∉ takenKeys accCells := by
        apply hdisj
        rw [hkeysCons]
        exact List.mem_cons_self _ _
      have hidx : hashStr o.key % accCells.length < accCells.length :=
        Nat.mod_lt _ hlen
      have hroom1 : (accCells.filter (fun c => c.taken)).length < accCells.length := by
        rw [hfilterCons] at hroom
        simp only [List.length_cons] at hroom
        omega
      obtain ⟨i, hp⟩ := probeInsert_total hidx (exists_untaken hroom1)
      have hpE : probeEmpty accCells accCells.length
          (hashStr o.key % accCells.length) = some i := by
        rw [probeEmpty_eq_probeInsert hnmem]
        exact hp
      obtain ⟨c, hg, hstop⟩ := probeInsert_stop hp
      have htf : c.taken = false := by
        rcases hstop with h | ⟨htt, hkeq⟩
        · exact h
        · exact absurd (hkeq ▸ mem_takenKeys_of (List.get?_mem hg) htt) hnmem
      have hvo : 1 ≤ o.value := hposOld o (List.mem_cons_self _ _) hto
      obtain ⟨hinv2, hcount2, hperm2, hmem2⟩ := set_fresh_spec hinv hg htf hvo hnmem hp
      have hstep : rehashStep (accCells, accCnt) o =
          some (accCells.set i ⟨o.key, o.value, true⟩, accCnt + 1) := by
        simp only [rehashStep, hto, if_true, hpE]
      have hndRest : (takenKeys rest).Nodup := by
        rw [hkeysCons] at hndOld
        exact (List.nodup_cons.mp hndOld).2
      have hkeyNotRest : o.key ∉ takenKeys rest := by
        rw [hkeysCons] at hndOld
        exact (List.nodup_cons.mp hndOld).1
      have hdisj2 : ∀ x ∈ takenKeys rest,
          x ∉ takenKeys (accCells.set i ⟨o.key, o.value, true⟩) := by
        intro x hx hmem
        rcases (hmem2 x).mp hmem with he | hold
        · exact hkeyNotRest (he ▸ hx)
        · exact hdisj x (by rw [hkeysCons]; exact List.mem_cons_of_mem _ hx) hold
      have hlen2 : 0 < (accCells.set i ⟨o.key, o.value, true⟩).length := by
        rw [List.length_set]
        exact hlen
      have hroom2 : ((accCells.set i ⟨o.key, o.value, true⟩).filter
            (fun c => c.taken)).length +
          (rest.filter (fun c => c.taken)).length <
            (accCells.set i ⟨o.key, o.value, true⟩).length := by
        rw [List.length_set, hcount2]
        rw [hfilterCons] at hroom
        simp only [List.length_cons] at hroom
        omega
      obtain ⟨cells2, hfold, hlen3, hinv3, hcount3, hperm3⟩ :=
        ih (accCells.set i ⟨o.key, o.value, true⟩) (accCnt + 1) hlen2 hinv2
          (fun c hc => hposOld c (List.mem_cons_of_mem _ hc)) hndRest hdisj2 hroom2
      refine ⟨cells2, ?_, ?_, hinv3, ?_, ?_⟩
      · rw [List.foldlM_cons, hstep]
        simp only [Option.bind_eq_bind, Option.some_bind]
        rw [hfold, hfilterCons]
        simp only [List.length_cons]
        have he2 : accCnt + 1 + (rest.filter (fun c => c.taken)).length =
            accCnt + ((rest.filter (fun c => c.taken)).length + 1) := by omega
        rw [he2]
      · rw [hlen3, List.length_set]
      · rw [hcount3, hcount2, hfilterCons]
        simp only [List.length_cons]
        omega
      · refine hperm3.trans ?_
        have h1 : (pairsOf (accCells.set i ⟨o.key, o.value, true⟩) ++
            pairsOf rest).Perm (((o.key, o.value) :: pairsOf accCells) ++ pairsOf rest) :=
          hperm2.append_right _
        refine h1.trans ?_
        have hpAll : pairsOf (o :: rest) = (o.key, o.value) :: pairsOf rest :=
          pairsOf_cons_taken hto rest
        rw [hpAll, List.cons_append]
        exact List.perm_middle.symm
    · have htof : o.taken = false := by
        cases h : o.taken with
        | true => exact absurd h hto
        | false => rfl
      have hstep : rehashStep (accCells, accCnt) o = some (accCells, accCnt) := by
        simp [rehashStep, htof]
      have hkeysCons : takenKeys (o :: rest) = takenKeys rest :=
        takenKeys_cons_untaken htof rest
      have hfilterCons : (o :: rest).filter (fun c => c.taken) =
          rest.filter (fun c => c.taken) := by
        simp [List.filter_cons, htof]
      obtain ⟨cells2, hfold, hlen3, hinv3, hcount3, hperm3⟩ :=
        ih accCells accCnt hlen hinv
          (fun c hc => hposOld c (List.mem_cons_of_mem _ hc))
          (by rw [hkeysCons] at hndOld; exact hndOld)
          (fun x hx => hdisj x (by rw [hkeysCons]; exact hx))
          (by rw [hfilterCons] at hroom; exact hroom)
      refine ⟨cells2, ?_, hlen3, hinv3, ?_, ?_⟩
      · rw [List.foldlM_cons, hstep]
        simp only [Option.bind_eq_bind, Option.some_bind]
        rw [hfold, hfilterCons]
      · rw [hcount3, hfilterCons]
      · refine hperm3.trans ?_
        rw [pairsOf_cons_untaken htof]

/-- Full specification of `HashTable::extend` on an invariant-satisfying
table: it succeeds, doubles the capacity, preserves `taken_count` and the
invariant, and keeps exactly the same (key, count) contents. -/
theorem extend_spec {t : HashTable}
    (hlen : 0 < t.cells.length)
    (hinv : CellsInv t.cells)
    (hcnt : t.taken_count = (t.cells.filter (fun c => c.taken)).length) :
    ∃ t2, t.extend = some t2 ∧
      t2.cells.length = t.cells.length * 2 ∧
      CellsInv t2.cells ∧
      t2.taken_count = t.taken_count ∧
      t2.taken_count = (t2.cells.filter (fun c => c.taken)).length ∧
      (pairsOf t2.cells).Perm (pairsOf t.cells) := by
  set acc0 : List HashCell := List.replicate (t.cells.length * 2) HashCell.empty
    with hacc0
  have hlen0 : acc0.length = t.cells.length * 2 := by
    rw [hacc0, List.length_replicate]
  have hfilter0 : acc0.filter (fun c => c.taken) = [] := by
    rw [hacc0]
    apply List.filter_eq_nil.mpr
    intro c hc
    rw [List.eq_of_mem_replicate hc]
    simp [HashCell.empty]
  have hkeys0 : takenKeys acc0 = [] := by
    rw [takenKeys, hfilter0]
    rfl
  have hinv0 : CellsInv acc0 := by
    refine ⟨by rw [hkeys0]; exact List.nodup_nil, ?_, ?_, ?_⟩
    · intro c hc _
      exact List.eq_of_mem_replicate hc
    · intro c hc ht
      rw [List.eq_of_mem_replicate hc] at ht
      simp [HashCell.empty] at ht
    · intro k hk
      rw [hkeys0] at hk
      exact absurd hk (List.not_mem_nil k)
  have hroom0 : (acc0.filter (fun c => c.taken)).length +
      (t.cells.filter (fun c => c.taken)).length < acc0.length := by
    rw [hfilter0, hlen0]
    simp only [List.length_nil, Nat.zero_add]
    calc (t.cells.filter (fun c => c.taken)).length
        ≤ t.cells.length := List.length_filter_le _ _
      _ < t.cells.length * 2 := by omega
  obtain ⟨cells2, hfold, hlen2, hinv2, hcount2, hperm2⟩ :=
    rehash_fold_spec t.cells acc0 0 (by rw [hlen0]; omega) hinv0
      (fun c hc ht => hinv.2.2.1 c hc ht)
      hinv.1
      (fun x _ => by rw [hkeys0]; exact List.not_mem_nil x)
      hroom0
  refine ⟨⟨cells2, 0 + (t.cells.filter (fun c => c.taken)).length⟩, ?_, ?_, hinv2,
    ?_, ?_, ?_⟩
  · simp only [HashTable.extend, if_pos hlen]
    rw [← hacc0, hfold]
    rfl
  · simpa [hlen0] using hlen2
  · simp only [Nat.zero_add]
    exact hcnt.symm
  · simp only [Nat.zero_add]
    rw [hcount2, hfilter0]
    simp
  · refine hperm2.trans ?_
    rw [pairsOf, hfilter0]
    simp

/-! ### `insert` and sequences of inserts -/

/-- Full specification of `HashTable::insert` on an invariant state: the
insert succeeds, preserves the invariant, bumps the contents at the key, and
the capacity doubles exactly when the table was full. -/
theorem insert_spec {t : HashTable} (k : String) (hinv : HInv t) :
    ∃ t2, t.insert k = some t2 ∧ HInv t2 ∧
      (tablePairs t2).Perm (bump (tablePairs t) k) ∧
      (t2.cells.length = t.cells.length ∨ t2.cells.length = t.cells.length * 2) ∧
      t.cells.length ≤ t2.cells.length ∧
      (t.cells.length ≤ t.taken_count → t2.cells.length = t.cells.length * 2) ∧
      (t.taken_count < t.cells.length → t2.cells.length = t.cells.length) ∧
      t2.taken_count ≤ t.taken_count + 1 ∧
      (k ∈ takenKeys t.cells → t2.taken_count = t.taken_count) := by
  obtain ⟨hlen, hcnt, hcinv⟩ := hinv
  by_cases hfull : t.cells.length ≤ t.taken_count
  · obtain ⟨tE, hE, hlenE, hinvE, hcntE, hcntE2, hpermE⟩ := extend_spec hlen hcinv hcnt
    have hfprev : (t.cells.filter (fun c => c.taken)).length ≤ t.cells.length :=
      List.length_filter_le _ _
    have hroomE : (tE.cells.filter (fun c => c.taken)).length < tE.cells.length := by
      rw [← hcntE2, hcntE, hcnt, hlenE]
      omega
    have hlenE0 : 0 < tE.cells.length := by
      rw [hlenE]
      omega
    obtain ⟨t2, hN, hlen2, hinv2, hfl2, htc2, hperm2⟩ :=
      insertNoGrow_spec k hlenE0 hinvE hroomE
    have hmemE : k ∈ takenKeys tE.cells ↔ k ∈ takenKeys t.cells := by
      rw [takenKeys_eq_fst_pairsOf, takenKeys_eq_fst_pairsOf]
      exact (hpermE.map Prod.fst).mem_iff
    refine ⟨t2, ?_, ⟨?_, ?_, hinv2⟩, ?_, ?_, ?_, ?_, ?_, ?_, ?_⟩
    · simp only [HashTable.insert, if_pos hfull, hE]
      exact hN
    · rw [hlen2]
      exact hlenE0
    · rw [htc2, hfl2, ← hcntE2]
    · refine (hperm2.trans ?_ : (tablePairs t2).Perm _)
      exact bump_perm_congr k hpermE
    · right
      rw [hlen2, hlenE]
    · rw [hlen2, hlenE]
      omega
    · intro _
      rw [hlen2, hlenE]
    · intro hlt
      omega
    · rw [htc2, hcntE]
      split
      · omega
      · omega
    · intro hmem
      rw [htc2, if_pos (hmemE.mpr hmem), hcntE]
      omega
  · push_neg at hfull
    have hroom : (t.cells.filter (fun c => c.taken)).length < t.cells.length := by
      rw [← hcnt]
      exact hfull
    obtain ⟨t2, hN, hlen2, hinv2, hfl2, htc2, hperm2⟩ :=
      insertNoGrow_spec k hlen hcinv hroom
    refine ⟨t2, ?_, ⟨?_, ?_, hinv2⟩, hperm2, ?_, ?_, ?_, ?_, ?_, ?_⟩
    · simp only [HashTable.insert]
      rw [if_neg (by omega)]
      exact hN
    · rw [hlen2]
      exact hlen
    · rw [htc2, hfl2, hcnt]
    · left
      exact hlen2
    · rw [hlen2]
    · intro h
      omega
    · intro _
      exact hlen2
    · rw [htc2]
      split
      · omega
      · omega
    · intro hmem
      rw [htc2, if_pos hmem]
      omega

/-- Folding `bump` respects permutation of the starting contents. -/
theorem foldl_bump_perm (tokens : List String) :
    ∀ {l1 l2 : List (String × Nat)}, l1.Perm l2 →
      (tokens.foldl bump l1).Perm (tokens.foldl bump l2) := by
  induction tokens with
  | nil =>
    intro l1 l2 h
    simpa using h
  | cons k rest ih =>
    intro l1 l2 h
    simp only [List.foldl_cons]
    exact ih (bump_perm_congr k h)

/-- Specification of a whole insertion sequence: it succeeds from any
invariant state, the final contents are the `bump`-fold of the tokens, the
capacity never shrinks, and a table with enough headroom never grows. -/
theorem insertAll_spec (tokens : List String) :
    ∀ t, HInv t →
      ∃ t2, insertAll t tokens = some t2 ∧ HInv t2 ∧
        (tablePairs t2).Perm (tokens.foldl bump (tablePairs t)) ∧
        t.cells.length ≤ t2.cells.length ∧
        t2.taken_count ≤ t.taken_count + tokens.length ∧
        (t.taken_count + tokens.length < t.cells.length →
          t2.cells.length = t.cells.length) := by
  induction tokens with
  | nil =>
    intro t h
    exact ⟨t, rfl, h, by simp, Nat.le_refl _, by simp, fun _ => rfl⟩
  | cons k rest ih =>
    intro t h
    obtain ⟨t1, h1, hinv1, hperm1, hor1, hle1, hgrow1, hnogrow1, hcle1, hmem1⟩ :=
      insert_spec k h
    obtain ⟨t2, h2, hinv2, hperm2, hle2, hcle2, hnogrow2⟩ := ih t1 hinv1
    refine ⟨t2, ?_, hinv2, ?_, ?_, ?_, ?_⟩
    · rw [insertAll, List.foldlM_cons, h1]
      simp only [Option.bind_eq_bind, Option.some_bind]
      exact h2
    · simp only [List.foldl_cons]
      exact hperm2.trans (foldl_bump_perm rest hperm1)
    · exact Nat.le_trans hle1 hle2
    · simp only [List.length_cons]
      omega
    · intro hhead
      simp only [List.length_cons] at hhead
      have hlt : t.taken_count < t.cells.length := by omega
      have he1 : t1.cells.length = t.cells.length := hnogrow1 hlt
      have he2 : t2.cells.length = t1.cells.length := by
        apply hnogrow2
        rw [he1]
        omega
      rw [he2, he1]

/-! ### Fresh tables and reachable states -/

theorem filterTaken_replicate (n : Nat) :
    (List.replicate n HashCell.empty).filter (fun c => c.taken) = [] := by
  apply List.filter_eq_nil.mpr
  intro c hc
  rw [List.eq_of_mem_replicate hc]
  simp [HashCell.empty]

theorem hinv_newWith {cap : Nat} (h : 0 < cap) : HInv (HashTable.newWith cap) := by
  have hkeys0 : takenKeys (HashTable.newWith cap).cells = [] := by
    rw [HashTable.newWith, takenKeys, filterTaken_replicate]
    rfl
  refine ⟨?_, ?_, ?_, ?_, ?_, ?_⟩
  · simpa [HashTable.newWith] using h
  · simp [HashTable.newWith, filterTaken_replicate]
  · rw [hkeys0]
    exact List.nodup_nil
  · intro c hc _
    exact List.eq_of_mem_replicate hc
  · intro c hc ht
    rw [List.eq_of_mem_replicate hc] at ht
    simp [HashCell.empty] at ht
  · intro k hk
    rw [hkeys0] at hk
    exact absurd hk (List.not_mem_nil k)

theorem hinv_new : HInv HashTable.new :=
  hinv_newWith (by omega)

theorem tablePairs_new : tablePairs HashTable.new = [] := by
  rw [tablePairs, HashTable.new, HashTable.newWith, pairsOf, filterTaken_replicate]
  rfl

/-- Every reachable table state satisfies the invariant. -/
theorem reach_hinv {t : HashTable} (h : Reach t) : HInv t := by
  obtain ⟨tokens, hrun⟩ := h
  obtain ⟨t2, h2, hinv2, _, _, _, _⟩ := insertAll_spec tokens HashTable.new hinv_new
  rw [runTable] at hrun
  rw [hrun] at h2
  cases h2
  exact hinv2

/-- The contents of any reachable table are the `bump`-fold of some token
sequence. -/
theorem reach_pairs {t : HashTable} (h : Reach t) :
    ∃ tokens, runTable tokens = some t ∧
      (tablePairs t).Perm (tokens.foldl bump []) := by
  obtain ⟨tokens, hrun⟩ := h
  obtain ⟨t2, h2, _, hperm, _, _, _⟩ := insertAll_spec tokens HashTable.new hinv_new
  rw [runTable] at hrun
  rw [hrun] at h2
  cases h2
  refine ⟨tokens, hrun, ?_⟩
  rw [tablePairs_new] at hperm
  exact hperm

/-! ### The baseline (`naive_analysis`) side -/

theorem fst_kvPairs (L : List FreqKV) :
    (L.map (fun kv => (kv.key, kv.value))).map Prod.fst =
      L.map (fun kv => kv.key) := by
  simp [List.map_map]

theorem findIdx_some_spec {f : FreqKVs} {w : String} {i : Nat}
    (h : f.findIdx w = some i) :
    ∃ kv, f.freq_table.get? i = some kv ∧ kv.key = w := by
  have hp := List.find?_some h
  cases hg : f.freq_table.get? i with
  | none =>
    rw [hg] at hp
    simp at hp
  | some kv =>
    rw [hg] at hp
    exact ⟨kv, rfl, by simpa using hp⟩

theorem findIdx_none_iff {f : FreqKVs} (hc : f.count = f.freq_table.length)
    (w : String) :
    f.findIdx w = none ↔ w ∉ f.freq_table.map (fun kv => kv.key) := by
  constructor
  · intro hnone hmem
    obtain ⟨kv, hkv, hkey⟩ := List.mem_map.mp hmem
    obtain ⟨⟨j, hj⟩, hget⟩ := List.mem_iff_get.mp hkv
    have hjmem : j ∈ List.range f.count := by
      rw [List.mem_range, hc]
      exact hj
    have := List.find?_eq_none.mp hnone j hjmem
    apply this
    rw [List.get?_eq_get hj, hget]
    simpa using hkey
  · intro hmem
    apply List.find?_eq_none.mpr
    intro j _
    cases hg : f.freq_table.get? j with
    | none => simp
    | some kv =>
      have hne : kv.key ≠ w := by
        intro he
        exact hmem (List.mem_map.mpr ⟨kv, List.get?_mem hg, he⟩)
      simpa using hne

/-- One step of the baseline loop implements `bump` and preserves the
baseline invariant. -/
theorem naive_step_spec {f : FreqKVs} (hinv : NInv f) (w : String) :
    NInv (f.step w) ∧ naivePairs (f.step w) = bump (naivePairs f) w := by
  obtain ⟨hc, hnd⟩ := hinv
  cases hf : f.findIdx w with
  | none =>
    have hnmem : w ∉ f.freq_table.map (fun kv => kv.key) :=
      (findIdx_none_iff hc w).mp hf
    have hstep : f.step w = ⟨f.freq_table ++ [⟨w, 1⟩], f.count + 1⟩ := by
      rw [FreqKVs.step, hf]
    rw [hstep]
    refine ⟨⟨?_, ?_⟩, ?_⟩
    · simp [hc]
    · simp only [List.map_append]
      rw [List.nodup_append]
      refine ⟨hnd, by simp, ?_⟩
      intro x hx hx2
      simp at hx2
      rw [hx2] at hx
      exact hnmem hx
    · rw [naivePairs]
      simp only [List.map_append]
      rw [bump_absent (by rw [naivePairs, fst_kvPairs]; exact hnmem)]
      rfl
  | some i =>
    obtain ⟨kv, hg, hkey⟩ := findIdx_some_spec hf
    have hstep : f.step w = ⟨f.freq_table.set i ⟨kv.key, kv.value + 1⟩, f.count⟩ := by
      simp only [FreqKVs.step, hf, hg]
    obtain ⟨hde, hse⟩ := list_set_decomp hg
    have hsetEq : f.freq_table.set i ⟨kv.key, kv.value + 1⟩ =
        f.freq_table.take i ++ ⟨kv.key, kv.value + 1⟩ :: f.freq_table.drop (i + 1) :=
      hse _
    have hkeysOld : f.freq_table.map (fun x => x.key) =
        (f.freq_table.take i).map (fun x => x.key) ++
          kv.key :: (f.freq_table.drop (i + 1)).map (fun x => x.key) := by
      conv_lhs => rw [hde]
      simp
    have hndOld := hnd
    rw [hkeysOld] at hndOld
    have hnotin : kv.key ∉ (f.freq_table.take i).map (fun x => x.key) ++
        (f.freq_table.drop (i + 1)).map (fun x => x.key) :=
      (List.nodup_cons.mp (List.nodup_middle.mp hndOld)).1
    rw [hstep]
    refine ⟨⟨?_, ?_⟩, ?_⟩
    · simp [hc]
    · have : (f.freq_table.set i ⟨kv.key, kv.value + 1⟩).map (fun x => x.key) =
          f.freq_table.map (fun x => x.key) := by
        rw [hsetEq, hkeysOld]
        simp
      rw [this]
      exact hnd
    · have hpOld : naivePairs f =
          (f.freq_table.take i).map (fun x => (x.key, x.value)) ++
            (kv.key, kv.value) ::
              (f.freq_table.drop (i + 1)).map (fun x => (x.key, x.value)) := by
        rw [naivePairs]
        conv_lhs => rw [hde]
        simp
      have hpNew : naivePairs ⟨f.freq_table.set i ⟨kv.key, kv.value + 1⟩, f.count⟩ =
          (f.freq_table.take i).map (fun x => (x.key, x.value)) ++
            (kv.key, kv.value + 1) ::
              (f.freq_table.drop (i + 1)).map (fun x => (x.key, x.value)) := by
        rw [naivePairs]
        rw [show (⟨f.freq_table.set i ⟨kv.key, kv.value + 1⟩, f.count⟩ :
            FreqKVs).freq_table = f.freq_table.set i ⟨kv.key, kv.value + 1⟩ from rfl]
        rw [hsetEq]
        simp
      rw [hpNew, hpOld, ← hkey]
      rw [bump_found]
      · rw [fst_kvPairs]
        intro hmem
        exact hnotin (List.mem_append.mpr (Or.inl hmem))
      · rw [fst_kvPairs]
        intro hmem
        exact hnotin (List.mem_append.mpr (Or.inr hmem))

theorem ninv_new : NInv FreqKVs.new := by
  constructor <;> simp [FreqKVs.new]

theorem naivePairs_new : naivePairs FreqKVs.new = [] := rfl

/-- The whole baseline run computes the `bump`-fold of the tokens. -/
theorem runNaive_fold_spec (tokens : List String) :
    ∀ f, NInv f →
      NInv (tokens.foldl FreqKVs.step f) ∧
      naivePairs (tokens.foldl FreqKVs.step f) = tokens.foldl bump (naivePairs f) := by
  induction tokens with
  | nil =>
    intro f h
    exact ⟨h, rfl⟩
  | cons w rest ih =>
    intro f h
    obtain ⟨h1, h2⟩ := naive_step_spec h w
    obtain ⟨h3, h4⟩ := ih (f.step w) h1
    refine ⟨by simpa using h3, ?_⟩
    simp only [List.foldl_cons]
    rw [← h2]
    exact h4

theorem tablePairs_newWith (cap : Nat) : tablePairs (HashTable.newWith cap) = [] := by
  rw [tablePairs, HashTable.newWith, pairsOf, filterTaken_replicate]
  rfl

theorem takenKeys_eq_fst_tablePairs (t : HashTable) :
    takenKeys t.cells = (tablePairs t).map Prod.fst := by
  rw [tablePairs]
  exact takenKeys_eq_fst_pairsOf _

/-! ### Claim theorems -/

/-- C1: for every input token sequence, the multiset of (key, count) pairs
held in the final `HashTable` after inserting every token equals the multiset
of (key, value) pairs produced by the baseline `FreqKVs` structure for the
same sequence. -/
theorem c1_table_matches_baseline (tokens : List String) :
    ∃ t, runTable tokens = some t ∧
      (tablePairs t : Multiset (String × Nat)) =
        (naivePairs (runNaive tokens) : Multiset (String × Nat)) := by
  obtain ⟨t, hrun, _, hperm, _, _, _⟩ := insertAll_spec tokens HashTable.new hinv_new
  obtain ⟨_, hnp⟩ := runNaive_fold_spec tokens FreqKVs.new ninv_new
  refine ⟨t, hrun, ?_⟩
  rw [Multiset.coe_eq_coe]
  rw [tablePairs_new] at hperm
  rw [runNaive, hnp, naivePairs_new]
  exact hperm

/-- C3: `HashTable::extend` always produces a table whose capacity is exactly
double the old capacity, whose occupied entries are exactly the previously
occupied entries (as a multiset of (key, count) pairs, so every key keeps its
count) with `taken_count` preserved; consequently inserting a token sequence
into the default table (which may grow mid-stream) yields the same final
per-key counts as a table created large enough never to grow. -/
theorem c3_extend_preserves_contents :
    (∀ t, HInv t →
      ∃ t2, t.extend = some t2 ∧
        t2.cells.length = 2 * t.cells.length ∧
        t2.taken_count = t.taken_count ∧
        (tablePairs t2 : Multiset (String × Nat)) = tablePairs t) ∧
    (∀ tokens : List String,
      ∃ u v, runTable tokens = some u ∧
        insertAll (HashTable.newWith (tokens.length + 10)) tokens = some v ∧
        v.cells.length = tokens.length + 10 ∧
        (tablePairs u : Multiset (String × Nat)) = tablePairs v) := by
  constructor
  · intro t hinv
    obtain ⟨t2, hE, hlen, _, hcnt, _, hperm⟩ := extend_spec hinv.1 hinv.2.2 hinv.2.1
    refine ⟨t2, hE, by rw [hlen, Nat.mul_comm], hcnt, ?_⟩
    rw [Multiset.coe_eq_coe]
    exact hperm
  · intro tokens
    obtain ⟨u, hu, _, hpermu, _, _, _⟩ := insertAll_spec tokens HashTable.new hinv_new
    obtain ⟨v, hv, _, hpermv, _, _, hnogrow⟩ :=
      insertAll_spec tokens (HashTable.newWith (tokens.length + 10))
        (hinv_newWith (by omega))
    refine ⟨u, v, hu, hv, ?_, ?_⟩
    · have := hnogrow (by simp [HashTable.newWith])
      simpa [HashTable.newWith] using this
    · rw [Multiset.coe_eq_coe]
      rw [tablePairs_new] at hpermu
      rw [tablePairs_newWith] at hpermv
      exact hpermu.trans hpermv.symm

/-- C3 witness: the extend part applied to the fresh table and the refinement
part applied to a concrete one-token sequence. -/
theorem c3_witness :
    (∃ t2, HashTable.new.extend = some t2 ∧
      t2.cells.length = 2 * HashTable.new.cells.length ∧
      t2.taken_count = HashTable.new.taken_count ∧
      (tablePairs t2 : Multiset (String × Nat)) = tablePairs HashTable.new) ∧
    (∃ u v, runTable ["a"] = some u ∧
      insertAll (HashTable.newWith (["a"].length + 10)) ["a"] = some v ∧
      v.cells.length = ["a"].length + 10 ∧
      (tablePairs u : Multiset (String × Nat)) = tablePairs v) :=
  ⟨c3_extend_preserves_contents.1 HashTable.new hinv_new,
    c3_extend_preserves_contents.2 ["a"]⟩

/-- C4: in every reachable state `taken_count ≤ cells.len()`, and an insert
that begins with `taken_count = cells.len()` grows the table first, so the
capacity right after such an insert is double the previous one. -/
theorem c4_occupancy_bound (t : HashTable) (hr : Reach t) :
    t.taken_count ≤ t.cells.length ∧
    ∀ k t2, t.taken_count = t.cells.length → t.insert k = some t2 →
      t2.cells.length = 2 * t.cells.length := by
  have hinv := reach_hinv hr
  constructor
  · rw [hinv.2.1]
    exact List.length_filter_le _ _
  · intro k t2 hfull hins
    obtain ⟨t2x, hins', _, _, _, _, hgrow, _, _, _⟩ := insert_spec k hinv
    rw [hins] at hins'
    cases hins'
    rw [hgrow (by omega), Nat.mul_comm]

/-- C4 witness: ten distinct keys exactly fill the fresh table, and the next
insert doubles the capacity. -/
theorem c4_witness :
    tenTable.taken_count ≤ tenTable.cells.length ∧
    tenTableNext.cells.length = 2 * tenTable.cells.length :=
  ⟨(c4_occupancy_bound tenTable ⟨tenKeys, by decide⟩).1,
    (c4_occupancy_bound tenTable ⟨tenKeys, by decide⟩).2 "t11" tenTableNext
      (by decide) (by decide)⟩

/-- C5: the probing loop of `insert` terminates (within `capacity` probe
steps, the fuel of the model) for every reachable state and every key, so the
whole insert returns a result rather than diverging. -/
theorem c5_insert_terminates (t : HashTable) (k : String) (hr : Reach t) :
    ∃ t2, t.insert k = some t2 := by
  obtain ⟨t2, hins, _⟩ := insert_spec k (reach_hinv hr)
  exact ⟨t2, hins⟩

/-- C5 witness: termination at the fresh table. -/
theorem c5_witness : ∃ t2, HashTable.new.insert "a" = some t2 :=
  c5_insert_terminates HashTable.new "a" ⟨[], rfl⟩

/-- C6: in every reachable state no two occupied cells hold the same key, and
inserting an already-present key increments that key's count by one, leaves
`taken_count` unchanged and creates no duplicate slot. -/
theorem c6_no_duplicate_keys (t : HashTable) (hr : Reach t) :
    (takenKeys t.cells).Nodup ∧
    ∀ k, k ∈ takenKeys t.cells →
      ∃ t2 v rest, t.insert k = some t2 ∧
        t2.taken_count = t.taken_count ∧
        (takenKeys t2.cells).Nodup ∧
        (tablePairs t : Multiset (String × Nat)) = (k, v) ::ₘ rest ∧
        (tablePairs t2 : Multiset (String × Nat)) = (k, v + 1) ::ₘ rest := by
  have hinv := reach_hinv hr
  refine ⟨hinv.2.2.1, ?_⟩
  intro k hmem
  obtain ⟨t2, hins, hinv2, hperm, _, _, _, _, _, hcnt⟩ := insert_spec k hinv
  have hmem2 : k ∈ (tablePairs t).map Prod.fst := by
    rw [← takenKeys_eq_fst_tablePairs]
    exact hmem
  obtain ⟨p, hp, hfst⟩ := List.mem_map.mp hmem2
  obtain ⟨k2, v⟩ := p
  simp only at hfst
  rw [hfst] at hp
  obtain ⟨P, Q, hPQ⟩ := List.append_of_mem hp
  have hnd := hinv.2.2.1
  rw [takenKeys_eq_fst_tablePairs, hPQ, List.map_append, List.map_cons] at hnd
  have hnotin : k ∉ P.map Prod.fst ++ Q.map Prod.fst :=
    (List.nodup_cons.mp (List.nodup_middle.mp hnd)).1
  have hbump : bump (tablePairs t) k = P ++ (k, v + 1) :: Q := by
    rw [hPQ]
    exact bump_found
      (fun hm => hnotin (List.mem_append.mpr (Or.inl hm)))
      (fun hm => hnotin (List.mem_append.mpr (Or.inr hm)))
  refine ⟨t2, v, ↑(P ++ Q), hins, hcnt hmem, hinv2.2.2.1, ?_, ?_⟩
  · rw [hPQ]
    rw [show ((k, v) ::ₘ (↑(P ++ Q) : Multiset (String × Nat))) =
        ↑((k, v) :: (P ++ Q)) from (Multiset.cons_coe _ _)]
    exact Multiset.coe_eq_coe.mpr List.perm_middle
  · rw [show ((k, v + 1) ::ₘ (↑(P ++ Q) : Multiset (String × Nat))) =
        ↑((k, v + 1) :: (P ++ Q)) from (Multiset.cons_coe _ _)]
    apply Multiset.coe_eq_coe.mpr
    refine hperm.trans ?_
    rw [hbump]
    exact List.perm_middle

/-- C6 witness: applied to the reachable one-entry table holding "a". -/
theorem c6_witness :
    (takenKeys ((runTable ["a"]).getD HashTable.new).cells).Nodup ∧
    ∃ t2 v rest,
      ((runTable ["a"]).getD HashTable.new).insert "a" = some t2 ∧
      t2.taken_count = ((runTable ["a"]).getD HashTable.new).taken_count ∧
      (takenKeys t2.cells).Nodup ∧
      (tablePairs ((runTable ["a"]).getD HashTable.new) : Multiset (String × Nat)) =
        ("a", v) ::ₘ rest ∧
      (tablePairs t2 : Multiset (String × Nat)) = ("a", v + 1) ::ₘ rest :=
  ⟨(c6_no_duplicate_keys ((runTable ["a"]).getD HashTable.new) ⟨["a"], by decide⟩).1,
    (c6_no_duplicate_keys ((runTable ["a"]).getD HashTable.new) ⟨["a"], by decide⟩).2
      "a" (by decide)⟩

/-- C7: the hash function implements djb2 exactly as the spec states it —
starting from 5381, each byte update is `accumulator * 33 + byte` reduced
modulo `2 ^ 64` (the machine word width) — and it is a pure function, so
equal strings hash identically. -/
theorem c7_hash_is_djb2 (s t : String) :
    hashStr s = djb2_spec (strBytes s) ∧ (s = t → hashStr s = hashStr t) := by
  constructor
  · rw [hashStr, djb2_spec]
    suffices h : ∀ (l : List Nat) (a : Nat),
        l.foldl hashStep a = l.foldl (fun acc c => (acc * 33 + c) % USIZE) a by
      exact h _ _
    intro l
    induction l with
    | nil => intro a; rfl
    | cons c rest ih =>
      intro a
      simp only [List.foldl_cons]
      rw [ih]
      congr 1
      rw [hashStep, Nat.shiftLeft_eq]
      have h32 : (2 : Nat) ^ 5 = 32 := rfl
      have h64 : USIZE = 18446744073709551616 := by norm_num [USIZE]
      rw [h32, h64]
      omega
  · intro he
    rw [he]

/-- C7 witness. -/
theorem c7_witness :
    hashStr "a" = djb2_spec (strBytes "a") ∧ hashStr "a" = hashStr "a" :=
  ⟨(c7_hash_is_djb2 "a" "a").1, (c7_hash_is_djb2 "a" "a").2 rfl⟩

/-- C8: inserting 11 distinct tokens into a fresh table (capacity 10)
triggers exactly one growth (final capacity 20 = one doubling), after which
all 11 keys are occupied cells with count 1 and `taken_count` is 11. -/
theorem c8_growth_scenario : c8check = true := by decide

/-! ### The top-10 report loops -/

/-- Printing `n` rows out of fewer than `n` available is an out-of-bounds
access: the loop model fails. -/
theorem reportRows_oob {α : Type _} (key : α → String) (value : α → Nat)
    (rows : List α) {n : Nat} (h : rows.length < n) :
    reportRows key value rows n = none := by
  cases n with
  | zero => omega
  | succ m =>
    have hget : rows.get? m = none := by
      rw [List.get?_eq_none]
      omega
    rw [reportRows, hget]
    cases reportRows key value rows m <;> rfl

/-- Printing `n` rows out of at least `n` available succeeds, and row `i` is
the (key, value) pair of element `i`. -/
theorem reportRows_total {α : Type _} (key : α → String) (value : α → Nat)
    (rows : List α) (n : Nat) (h : n ≤ rows.length) :
    ∃ rep, reportRows key value rows n = some rep ∧ rep.length = n ∧
      ∀ i, i < n → rep.get? i = (rows.get? i).map (fun r => (key r, value r)) := by
  induction n with
  | zero => exact ⟨[], rfl, rfl, fun i hi => by omega⟩
  | succ m ih =>
    obtain ⟨rep, hrep, hlen, hidx⟩ := ih (by omega)
    have hm : m < rows.length := by omega
    have hget : rows.get? m = some (rows.get ⟨m, hm⟩) := List.get?_eq_get hm
    refine ⟨rep ++ [(key (rows.get ⟨m, hm⟩), value (rows.get ⟨m, hm⟩))], ?_, ?_, ?_⟩
    · rw [reportRows, hrep, hget]
    · simp [hlen]
    · intro i hi
      by_cases he : i < m
      · rw [List.get?_append (by omega : i < rep.length)]
        exact hidx i he
      · have hieq : i = m := by omega
        subst hieq
        rw [List.get?_append_right (by omega : rep.length ≤ i)]
        have h0 : i - rep.length = 0 := by omega
        rw [h0, hget]
        rfl

/-- An index-bound form of membership in a `take`. -/
theorem mem_take_get? {α : Type _} {l : List α} {n : Nat} {x : α}
    (h : x ∈ l.take n) : ∃ j, j < n ∧ l.get? j = some x := by
  obtain ⟨⟨j, hj⟩, hget⟩ := List.mem_iff_get.mp h
  have hjn : j < n := by
    have := hj
    rw [List.length_take] at this
    omega
  refine ⟨j, hjn, ?_⟩
  rw [← List.get?_take hjn]
  rw [List.get?_eq_get hj, hget]

/-- In a reachable table, every cell of the sorted report sequence at an index
at or past `taken_count` is the pristine default cell. -/
theorem sorted_suffix_empty {t : HashTable} (hinv : HInv t) :
    ∀ i c, (sortCells t.cells).get? i = some c → t.taken_count ≤ i →
      c = HashCell.empty := by
  intro i c hget hle
  have hperm : (sortCells t.cells).Perm t.cells := List.perm_insertionSort cellGE _
  have hmemc : c ∈ t.cells := hperm.mem_iff.mp (List.get?_mem hget)
  by_contra hne
  have htc : c.taken = true := by
    cases h : c.taken with
    | false => exact absurd (hinv.2.2.2.1 c hmemc h) hne
    | true => rfl
  have hvc : 1 ≤ c.value := hinv.2.2.2.2.1 c hmemc htc
  have hsorted : List.Sorted cellGE (sortCells t.cells) :=
    List.sorted_insertionSort cellGE t.cells
  have hilen : i < (sortCells t.cells).length := (List.get?_eq_some.mp hget).1
  -- every element of the first i+1 sorted cells is occupied
  have htake : ∀ x ∈ (sortCells t.cells).take (i + 1), x.taken = true := by
    intro x hx
    obtain ⟨j, hj, hgetj⟩ := mem_take_get? hx
    have hjlen : j < (sortCells t.cells).length := (List.get?_eq_some.mp hgetj).1
    have hxval : 1 ≤ x.value := by
      by_cases hji : j = i
      · subst hji
        rw [hget] at hgetj
        cases hgetj
        exact hvc
      · have hjlt : j < i := by omega
        have hrel : cellGE ((sortCells t.cells).get ⟨j, hjlen⟩)
            ((sortCells t.cells).get ⟨i, hilen⟩) :=
          hsorted.rel_get_of_lt (by simpa using hjlt)
        have hgi : (sortCells t.cells).get ⟨i, hilen⟩ = c := by
          have := List.get?_eq_get hilen
          rw [hget] at this
          exact (Option.some.injEq _ _ ▸ this.symm : _)
        have hgj : (sortCells t.cells).get ⟨j, hjlen⟩ = x := by
          have := List.get?_eq_get hjlen
          rw [hgetj] at this
          exact (Option.some.injEq _ _ ▸ this.symm : _)
        rw [hgi, hgj] at hrel
        exact Nat.le_trans hvc hrel
    have hxmem : x ∈ t.cells := hperm.mem_iff.mp (List.get?_mem hgetj)
    cases h : x.taken with
    | false =>
      have := hinv.2.2.2.1 x hxmem h
      rw [this] at hxval
      simp [HashCell.empty] at hxval
    | true => rfl
  -- so the count of occupied cells is at least i + 1 > taken_count
  have hcount : t.taken_count = List.countP (fun c => c.taken) (sortCells t.cells) := by
    rw [hinv.2.1, List.countP_eq_length_filter]
    exact (((List.perm_insertionSort cellGE t.cells).filter
      (fun c => c.taken)).length_eq).symm
  have hsplit : List.countP (fun c => c.taken) (sortCells t.cells) =
      List.countP (fun c => c.taken) ((sortCells t.cells).take (i + 1)) +
        List.countP (fun c => c.taken) ((sortCells t.cells).drop (i + 1)) := by
    rw [← List.countP_append, List.take_append_drop]
  have htakecount : List.countP (fun c => c.taken) ((sortCells t.cells).take (i + 1)) =
      ((sortCells t.cells).take (i + 1)).length := by
    rw [List.countP_eq_length]
    intro a ha
    simpa using htake a ha
  have htakelen : ((sortCells t.cells).take (i + 1)).length = i + 1 := by
    rw [List.length_take]
    omega
  omega

theorem reach_capacity {t : HashTable} (h : Reach t) : 10 ≤ t.cells.length := by
  obtain ⟨tokens, hrun⟩ := h
  obtain ⟨t2, h2, _, _, hle, _, _⟩ := insertAll_spec tokens HashTable.new hinv_new
  rw [runTable] at hrun
  rw [hrun] at h2
  cases h2
  simpa [HashTable.new, HashTable.newWith] using hle

/-- C2 (refuting evidence, code bug): on the empty input (zero tokens) the
baseline run holds zero entries, and the naive top-10 report — which indexes
entries 0 through 9 unconditionally — goes out of bounds: the report model
returns `none`, the model of the source's index panic.  The claim that the
report loops stay in bounds and report only existing entries is therefore
violated by the code on every input with fewer than 10 distinct tokens. -/
theorem c2_naive_report_out_of_bounds :
    (runNaive []).freq_table.length = 0 ∧ naiveReport (runNaive []) = none := by
  constructor
  · rfl
  · decide

/-- C9: with no command-line argument the usage message (and the no-input
error) is printed, the empty path fails to open, its error (with path and
cause) is printed, and no analysis output is produced; with an argument
whose file fails to open, the error message containing the path and the
underlying failure is printed and no analysis output is produced. -/
theorem c9_error_paths (args : List String) (openRes : String → Except String Unit)
    (e : String) :
    (args.length ≤ 1 → openRes "" = Except.error e →
      mainModel args openRes =
        [OutLine.usage, OutLine.noInputErr, OutLine.openErr "" e] ∧
      OutLine.analysisOutput ∉ mainModel args openRes) ∧
    (∀ p, args.get? 1 = some p → openRes p = Except.error e →
      mainModel args openRes = [OutLine.openErr p e] ∧
      OutLine.analysisOutput ∉ mainModel args openRes) := by
  constructor
  · intro hlen hopen
    have hnlt : ¬1 < args.length := by omega
    have hmm : mainModel args openRes =
        [OutLine.usage, OutLine.noInputErr, OutLine.openErr "" e] := by
      simp only [mainModel, hnlt, if_false, hopen]
      rfl
    refine ⟨hmm, ?_⟩
    rw [hmm]
    simp
  · intro p hp hopen
    have hlt : 1 < args.length := (List.get?_eq_some.mp hp).1
    have hgetD : args.getD 1 "" = p := by
      rw [List.getD_eq_get?, hp]
      rfl
    have hmm : mainModel args openRes = [OutLine.openErr p e] := by
      simp only [mainModel, hlt, if_true, hgetD, hopen]
      rfl
    refine ⟨hmm, ?_⟩
    rw [hmm]
    simp

/-- C9 witness: a concrete run of each error path against a file system in
which every open fails. -/
theorem c9_witness :
    (mainModel [] (fun _ => Except.error "nofile") =
        [OutLine.usage, OutLine.noInputErr, OutLine.openErr "" "nofile"] ∧
      OutLine.analysisOutput ∉ mainModel [] (fun _ => Except.error "nofile")) ∧
    (mainModel ["prog", "input.txt"] (fun _ => Except.error "nofile") =
        [OutLine.openErr "input.txt" "nofile"] ∧
      OutLine.analysisOutput ∉
        mainModel ["prog", "input.txt"] (fun _ => Except.error "nofile")) :=
  ⟨(c9_error_paths [] (fun _ => Except.error "nofile") "nofile").1
      (by decide) rfl,
    (c9_error_paths ["prog", "input.txt"] (fun _ => Except.error "nofile")
      "nofile").2 "input.txt" rfl rfl⟩

/-- C10: every reachable table has capacity at least 10 (never decreasing
under inserts), so the hash-table report's unconditional indexing of rows 0
through 9 is in bounds; when fewer than 10 cells are occupied, the rows past
`taken_count` are unoccupied cells printed as ("", 0). -/
theorem c10_report_in_bounds (t : HashTable) (hr : Reach t) :
    10 ≤ t.cells.length ∧
    (∀ k t2, t.insert k = some t2 → t.cells.length ≤ t2.cells.length) ∧
    ∃ rep, betterReport t = some rep ∧ rep.length = 10 ∧
      ∀ i, t.taken_count ≤ i → i < 10 → rep.get? i = some ("", 0) := by
  have hinv := reach_hinv hr
  have hcap := reach_capacity hr
  refine ⟨hcap, ?_, ?_⟩
  · intro k t2 hins
    obtain ⟨t2x, hins', _, _, _, hle, _, _, _, _⟩ := insert_spec k hinv
    rw [hins] at hins'
    cases hins'
    exact hle
  · have hslen : (sortCells t.cells).length = t.cells.length :=
      (List.perm_insertionSort cellGE t.cells).length_eq
    obtain ⟨rep, hrep, hlenr, hidx⟩ := reportRows_total (fun c => c.key)
      (fun c => c.value) (sortCells t.cells) 10 (by omega)
    refine ⟨rep, hrep, hlenr, ?_⟩
    intro i hti h10
    have hilen : i < (sortCells t.cells).length := by omega
    have hget : (sortCells t.cells).get? i =
        some ((sortCells t.cells).get ⟨i, hilen⟩) := List.get?_eq_get hilen
    have hc := sorted_suffix_empty hinv i _ hget hti
    rw [hidx i h10, hget, hc]
    rfl

/-- C10 witness: the reachable one-entry table gets a full 10-row report whose
rows past the single occupied one are ("", 0). -/
theorem c10_witness :
    10 ≤ ((runTable ["a"]).getD HashTable.new).cells.length ∧
    ∃ rep, betterReport ((runTable ["a"]).getD HashTable.new) = some rep ∧
      rep.length = 10 ∧
      ∀ i, ((runTable ["a"]).getD HashTable.new).taken_count ≤ i → i < 10 →
        rep.get? i = some ("", 0) :=
  ⟨(c10_report_in_bounds ((runTable ["a"]).getD HashTable.new)
      ⟨["a"], by decide⟩).1,
    (c10_report_in_bounds ((runTable ["a"]).getD HashTable.new)
      ⟨["a"], by decide⟩).2.2⟩
